import Mathlib

/-!
Shallow embedding of src/model/encdec.py (class EncoderDecoder and its
generate loop).

Modelling conventions:
* scalars are rationals (ℚ);
* sequences are time-major lists (one entry per time step);
* the batch size is fixed at 1 (encdec.py line 39), so batch dimensions of
  size one are dropped from tensors;
* the TensorFlow recurrent cell (BasicRNNCell/GRUCell/LSTMCell, possibly
  stacked), its zero state, and the cross-entropy primitive
  tf.nn.sparse_softmax_cross_entropy_with_logits are library collaborators
  outside this repository, so they appear as opaque-to-us parameters of
  the model structure: an arbitrary state type `σ`, a step function
  `cellStep`, a distinguished `zero_state` and a function `xent`;
* fallible tensor operations (indexing an empty scan result, taking the
  last token of an empty prefix) return `Option`.
-/

/-- Fixed batch size (encdec.py line 39: `self.batch_size = 1`). -/
def batch_size : ℕ := 1

/-- `time_major` (encdec.py lines 19-25): `tf.transpose` with
`perm = [1, 0] + range(2, rank)`, i.e. the transposition that swaps the
first two axes and leaves all remaining axes fixed.  A tensor of rank at
least 2 is modelled as a function of its first two indices, the trailing
axes being absorbed in the entry type `γ`. -/
def time_major {b t : ℕ} {γ : Type} (x : Fin b → Fin t → γ) : Fin t → Fin b → γ :=
  fun i j => x j i

/-- `tf.scan f elems` with a given initial accumulator: the list of all
intermediate accumulators, one per input element; the initial accumulator
itself is not part of the result. -/
def tf_scan {α β : Type} (f : α → β → α) (a : α) : List β → List α
  | [] => []
  | x :: xs => f a x :: tf_scan f (f a x) xs

/-- `_get_final_state` (encdec.py lines 77-85): index the stacked per-step
states at position `len - 1`.  On an empty stack the index is `-1`, which
is an error, modelled as `none`. -/
def get_final_state {σ : Type} (states : List σ) : Option σ :=
  states.getLast?

/-- `np.argmax` over the vocabulary axis (encdec.py line 176): the first
index attaining the maximal score. -/
def np_argmax {n : ℕ} [NeZero n] (v : Fin n → ℚ) : Fin n :=
  (List.finRange n).foldl (fun best i => if v best < v i then i else best)
    (Fin.mk 0 (Nat.pos_of_ne_zero (NeZero.ne n)))

/-- The `EncoderDecoder` model (encdec.py lines 27-136) with vocabulary
size `V`, hidden size `H` and cell state type `σ`.  The fields are the
graph's parameters and its TensorFlow collaborators:
`embedding` is the `[vocab_size, rnn_size]` embedding variable (line 73);
`cellStep` is the recurrent cell built by `_build_rnn_cell`, mapping an
input vector and a previous state to (output, new state);
`zero_state` is `cell.zero_state(batch_size, float32)` (line 63);
`output_w`, `output_b` are the output projection variables (lines 102-103);
`xent` is `tf.nn.sparse_softmax_cross_entropy_with_logits` (line 126). -/
structure EncoderDecoder (V H : ℕ) (σ : Type) where
  embedding : Fin V → Fin H → ℚ
  cellStep : (Fin H → ℚ) → σ → (Fin H → ℚ) × σ
  zero_state : σ
  output_w : Fin H → Fin V → ℚ
  output_b : Fin V → ℚ
  xent : (Fin V → ℚ) → Fin V → ℚ

variable {V H : ℕ} {σ : Type}

namespace EncoderDecoder

/-- One scan step, `lambda a, x: cell(x, a[1])` (encdec.py line 93): the
output component of the carried accumulator is ignored, the cell is run on
the current input and the carried state. -/
def scan_step (m : EncoderDecoder V H σ) (a : (Fin H → ℚ) × σ) (x : Fin H → ℚ) :
    (Fin H → ℚ) × σ :=
  m.cellStep x a.2

/-- The zero output vector used in the scan's initial accumulator,
`tf.zeros([batch_size, cell.output_size])` (encdec.py line 93). -/
def zero_output : Fin H → ℚ :=
  fun _ => 0

/-- The `tf.scan` of encdec.py line 93: embed each input token
(`_build_rnn_inputs`, lines 67-75) and scan the cell over the time-major
sequence starting from the accumulator `(zero output, initial state)`. -/
def rnn_scan (m : EncoderDecoder V H σ) (s0 : σ) (inputs : List (Fin V)) :
    List ((Fin H → ℚ) × σ) :=
  tf_scan m.scan_step (zero_output, s0) (inputs.map m.embedding)

/-- The per-step hidden outputs `rnn_outputs` of the scan (line 93). -/
def rnn_outputs (m : EncoderDecoder V H σ) (s0 : σ) (inputs : List (Fin V)) :
    List (Fin H → ℚ) :=
  (m.rnn_scan s0 inputs).map Prod.fst

/-- `self.final_state` (line 95): `_get_final_state` applied to the stacked
per-step states of the scan. -/
def final_state (m : EncoderDecoder V H σ) (s0 : σ) (inputs : List (Fin V)) : Option σ :=
  get_final_state ((m.rnn_scan s0 inputs).map Prod.snd)

/-- `cond_output` (encdec.py lines 106-114): if the write flag is true,
project the hidden output with the shared matrix and bias,
`tf.matmul(h, w) + b`; otherwise a zero vector of vocabulary size. -/
def cond_output (m : EncoderDecoder V H σ) (h : Fin H → ℚ) (write : Bool) : Fin V → ℚ :=
  if write then (fun j => (∑ i, h i * m.output_w i j) + m.output_b j)
  else (fun _ => 0)

/-- `self.outputs` (encdec.py lines 119-121): map `cond_output` over the
zipped per-step hidden outputs and write flags. -/
def outputs (m : EncoderDecoder V H σ) (s0 : σ) (inputs : List (Fin V))
    (iswrite : List Bool) : List (Fin V → ℚ) :=
  List.zipWith (fun h w => m.cond_output h w) (m.rnn_outputs s0 inputs) iswrite

/-- `cond_loss` (encdec.py lines 124-129): cross-entropy between the step's
conditional output and the target when the write flag is true, else zero. -/
def cond_loss (m : EncoderDecoder V H σ) (output : Fin V → ℚ) (target : Fin V)
    (write : Bool) : ℚ :=
  if write then m.xent output target else 0

/-- `self.seq_loss` (encdec.py lines 133-135): map `cond_loss` over the
zipped per-step conditional outputs, targets and write flags. -/
def seq_loss (m : EncoderDecoder V H σ) (s0 : σ) (inputs targets : List (Fin V))
    (iswrite : List Bool) : List ℚ :=
  List.zipWith3 (fun o t w => m.cond_loss o t w)
    (m.outputs s0 inputs iswrite) targets iswrite

/-- `self.loss` (encdec.py line 136):
`tf.reduce_sum(seq_loss) / batch_size / to_float(shape(seq_loss)[0])`. -/
def loss (m : EncoderDecoder V H σ) (s0 : σ) (inputs targets : List (Fin V))
    (iswrite : List Bool) : ℚ :=
  (m.seq_loss s0 inputs targets iswrite).sum / (batch_size : ℚ)
    / ((m.seq_loss s0 inputs targets iswrite).length : ℚ)

/-- Independent restatement of state evolution, used to compare the scan
and `_get_final_state` against a plain left fold: the state after feeding a
token sequence to the cell starting from `s0`. -/
def state_after (m : EncoderDecoder V H σ) (s0 : σ) (inputs : List (Fin V)) : σ :=
  inputs.foldl (fun s t => (m.cellStep (m.embedding t) s).2) s0

/-- One iteration body of the decoding loop of `generate` (encdec.py lines
164-178): run the graph on the single last-known token with
`iswrite = [[True]]` and the carried state (line 158: `np.ones(..).astype
(np.bool_)`; line 167: the state is fed only when not `None`, otherwise the
graph's zero initial state applies); the step's logits are `self.outputs`
for that single step and the new state is `self.final_state`. -/
def gen_step (m : EncoderDecoder V H σ) (state : Option σ) (tok : Fin V) :
    (Fin V → ℚ) × σ :=
  let os := m.scan_step (zero_output, state.getD m.zero_state) (m.embedding tok)
  (m.cond_output os.1 true, os.2)

/-- The `while True` decoding loop of `generate` (encdec.py lines 164-181),
with explicit fuel: `none` means the fuel ran out before the loop's own
break (`pred in stop_symbols or len(preds) == max_len`) fired.  A `max_len`
of `none` models the Python default `max_len=None`, for which
`len(preds) == max_len` is always false. -/
def gen_loop [NeZero V] (m : EncoderDecoder V H σ) (stop : List (Fin V))
    (max_len : Option ℕ) :
    ℕ → Option σ → Fin V → List (Fin V) → Option (List (Fin V) × Option σ)
  | 0, _, _, _ => none
  | fuel + 1, state, input, preds =>
      let os := m.gen_step state input
      let pred := np_argmax os.1
      let preds2 := preds ++ [pred]
      if pred ∈ stop ∨ max_len = some preds2.length then some (preds2, some os.2)
      else m.gen_loop stop max_len fuel (some os.2) pred preds2

/-- `generate` (encdec.py lines 139-188) for the plain encoder-decoder (no
`kg` attribute): if the prefix has more than one token, prime the state by
running the scan over all but the last token (lines 147-153), feeding the
supplied `init_state` when present; otherwise the carried state is the
supplied `init_state` (line 155).  Then run the decoding loop starting
from the last prefix token (line 161).  An empty prefix makes
`inputs[:, -1]` an indexing error, modelled as `none`. -/
def generate [NeZero V] (m : EncoderDecoder V H σ) (inputs : List (Fin V))
    (stop : List (Fin V)) (max_len : Option ℕ) (init_state : Option σ)
    (fuel : ℕ) : Option (List (Fin V) × Option σ) :=
  match inputs.getLast? with
  | none => none
  | some last =>
      let state : Option σ :=
        if 1 < inputs.length then
          m.final_state (init_state.getD m.zero_state) inputs.dropLast
        else init_state
      m.gen_loop stop max_len fuel state last []

end EncoderDecoder

/-- A tiny concrete instance used to evaluate the model on explicit
inputs: vocabulary size 2, hidden size 1, trivial cell state.  The cell
echoes its input vector; the output projection scores token `j` as `j`,
so greedy decoding always picks token 1. -/
def testM : EncoderDecoder 2 1 Unit where
  embedding := fun _ _ => 1
  cellStep := fun x _ => (x, ())
  zero_state := ()
  output_w := fun _ j => (j.val : ℚ)
  output_b := fun _ => 0
  xent := fun v t => v t

/-! ### Helper lemmas about the scan, the final state and argmax -/

theorem tf_scan_length {α β : Type} (f : α → β → α) (a : α) (xs : List β) :
    (tf_scan f a xs).length = xs.length := by
  induction xs generalizing a with
  | nil => rfl
  | cons x xs ih => simp [tf_scan, ih]

theorem tf_scan_getElem? {α β : Type} (f : α → β → α) (xs : List β) :
    ∀ (a : α) (i : ℕ), i < xs.length →
      (tf_scan f a xs)[i]? = some (List.foldl f a (xs.take (i + 1))) := by
  induction xs with
  | nil => intro a i h; simp at h
  | cons x xs ih =>
      intro a i h
      cases i with
      | zero => simp [tf_scan]
      | succ i => simpa [tf_scan] using ih (f a x) i (by simpa using h)

theorem tf_scan_getLast? {α β : Type} (f : α → β → α) (xs : List β) (h : xs ≠ []) :
    ∀ a : α, (tf_scan f a xs).getLast? = some (List.foldl f a xs) := by
  induction xs with
  | nil => exact absurd rfl h
  | cons x xs ih =>
      intro a
      cases xs with
      | nil => simp [tf_scan]
      | cons y ys => simpa [tf_scan] using ih (by simp) (f a x)

theorem foldl_scan_step_snd (m : EncoderDecoder V H σ) (l : List (Fin H → ℚ)) :
    ∀ a : (Fin H → ℚ) × σ,
      (List.foldl m.scan_step a l).2 = List.foldl (fun s x => (m.cellStep x s).2) a.2 l := by
  induction l with
  | nil => intro a; rfl
  | cons x xs ih => intro a; simpa [EncoderDecoder.scan_step] using ih (m.cellStep x a.2)

theorem final_state_eq_state_after (m : EncoderDecoder V H σ) (s0 : σ)
    (inputs : List (Fin V)) (h : inputs ≠ []) :
    m.final_state s0 inputs = some (m.state_after s0 inputs) := by
  have hmap : inputs.map m.embedding ≠ [] := by simpa using h
  rw [EncoderDecoder.final_state, get_final_state, EncoderDecoder.rnn_scan,
    List.getLast?_map, tf_scan_getLast? _ _ hmap]
  simp only [Option.map_some']
  rw [foldl_scan_step_snd, List.foldl_map]
  rfl

theorem state_after_append (m : EncoderDecoder V H σ) (s0 : σ) (xs ys : List (Fin V)) :
    m.state_after s0 (xs ++ ys) = m.state_after (m.state_after s0 xs) ys := by
  simp [EncoderDecoder.state_after]

theorem le_foldl_max {n : ℕ} (v : Fin n → ℚ) (l : List (Fin n)) :
    ∀ init : Fin n,
      v init ≤ v (l.foldl (fun best i => if v best < v i then i else best) init) := by
  induction l with
  | nil => intro init; exact le_refl _
  | cons x xs ih =>
      intro init
      refine le_trans ?_ (ih (if v init < v x then x else init))
      by_cases hx : v init < v x
      · simpa [hx] using le_of_lt hx
      · simp [hx]

theorem mem_le_foldl_max {n : ℕ} (v : Fin n → ℚ) (l : List (Fin n)) :
    ∀ (init j : Fin n), j ∈ l →
      v j ≤ v (l.foldl (fun best i => if v best < v i then i else best) init) := by
  induction l with
  | nil => intro init j hj; simp at hj
  | cons x xs ih =>
      intro init j hj
      rcases List.mem_cons.mp hj with hx | hx
      · subst hx
        refine le_trans ?_ (le_foldl_max v xs (if v init < v j then j else init))
        by_cases hlt : v init < v j
        · simp [hlt]
        · simpa [hlt] using le_of_not_lt hlt
      · exact ih _ j hx

theorem np_argmax_is_max {n : ℕ} [NeZero n] (v : Fin n → ℚ) (j : Fin n) :
    v j ≤ v (np_argmax v) :=
  mem_le_foldl_max v (List.finRange n) _ j (List.mem_finRange j)

theorem zipWith3_getElem? {α β γ δ : Type} (f : α → β → γ → δ) (as : List α) :
    ∀ (bs : List β) (cs : List γ) (i : ℕ) (a : α) (b : β) (c : γ),
      as[i]? = some a → bs[i]? = some b → cs[i]? = some c →
      (List.zipWith3 f as bs cs)[i]? = some (f a b c) := by
  induction as with
  | nil => intro bs cs i a b c ha; simp at ha
  | cons x xs ih =>
      intro bs cs i a b c ha hb hc
      cases bs with
      | nil => simp at hb
      | cons y ys =>
          cases cs with
          | nil => simp at hc
          | cons z zs =>
              cases i with
              | zero =>
                  simp only [List.getElem?_cons_zero, Option.some.injEq] at ha hb hc
                  subst ha; subst hb; subst hc
                  simp [List.zipWith3]
              | succ i =>
                  simp only [List.getElem?_cons_succ] at ha hb hc
                  simpa [List.zipWith3] using ih ys zs i a b c ha hb hc

theorem zipWith3_length_eq {α β γ δ : Type} (f : α → β → γ → δ) :
    ∀ (as : List α) (bs : List β) (cs : List γ), as.length = bs.length →
      cs.length = bs.length → (List.zipWith3 f as bs cs).length = bs.length := by
  intro as
  induction as with
  | nil =>
      intro bs cs h1 _
      simp [List.zipWith3, h1.symm]
  | cons x xs ih =>
      intro bs cs h1 h2
      cases bs with
      | nil => simp at h1
      | cons y ys =>
          cases cs with
          | nil => simp at h2
          | cons z zs =>
              simp only [List.zipWith3, List.length_cons]
              rw [ih ys zs (by simpa using h1) (by simpa using h2)]

theorem gen_loop_succ [NeZero V] (m : EncoderDecoder V H σ) (stop : List (Fin V))
    (max_len : Option ℕ) (fuel : ℕ) (state : Option σ) (input : Fin V)
    (preds : List (Fin V)) :
    m.gen_loop stop max_len (fuel + 1) state input preds =
      if np_argmax (m.gen_step state input).1 ∈ stop ∨
          max_len = some (preds ++ [np_argmax (m.gen_step state input).1]).length
      then some (preds ++ [np_argmax (m.gen_step state input).1],
                 some (m.gen_step state input).2)
      else m.gen_loop stop max_len fuel (some (m.gen_step state input).2)
             (np_argmax (m.gen_step state input).1)
             (preds ++ [np_argmax (m.gen_step state input).1]) :=
  rfl

theorem generate_eq [NeZero V] (m : EncoderDecoder V H σ) (inputs stop : List (Fin V))
    (max_len : Option ℕ) (init_state : Option σ) (fuel : ℕ) (last : Fin V)
    (hlast : inputs.getLast? = some last) :
    m.generate inputs stop max_len init_state fuel =
      m.gen_loop stop max_len fuel
        (if 1 < inputs.length then
           m.final_state (init_state.getD m.zero_state) inputs.dropLast
         else init_state) last [] := by
  unfold EncoderDecoder.generate
  rw [hlast]

theorem generate_none [NeZero V] (m : EncoderDecoder V H σ) (inputs stop : List (Fin V))
    (max_len : Option ℕ) (init_state : Option σ) (fuel : ℕ)
    (hlast : inputs.getLast? = none) :
    m.generate inputs stop max_len init_state fuel = none := by
  unfold EncoderDecoder.generate
  rw [hlast]

theorem gen_loop_sound [NeZero V] (m : EncoderDecoder V H σ) (stop : List (Fin V))
    (max_len : Option ℕ) :
    ∀ (fuel : ℕ) (state : Option σ) (input : Fin V) (acc preds : List (Fin V))
      (st : Option σ),
      m.gen_loop stop max_len fuel state input acc = some (preds, st) →
      acc.length < preds.length ∧
        ∃ last, preds.getLast? = some last ∧
          (last ∈ stop ∨ max_len = some preds.length) := by
  intro fuel
  induction fuel with
  | zero =>
      intro state input acc preds st h
      simp [EncoderDecoder.gen_loop] at h
  | succ fuel ih =>
      intro state input acc preds st h
      rw [gen_loop_succ] at h
      split at h
      case isTrue hc =>
          simp only [Option.some.injEq, Prod.mk.injEq] at h
          obtain ⟨hp, _⟩ := h
          subst hp
          refine ⟨by simp, np_argmax (m.gen_step state input).1, List.getLast?_concat _, ?_⟩
          exact hc
      case isFalse hc =>
          obtain ⟨hlt, last, hl, hcond⟩ := ih _ _ _ _ _ h
          refine ⟨?_, last, hl, hcond⟩
          have : acc.length < (acc ++ [np_argmax (m.gen_step state input).1]).length := by simp
          omega

theorem gen_loop_reaches_cap [NeZero V] (m : EncoderDecoder V H σ) (stop : List (Fin V))
    (mlen : ℕ) :
    ∀ (fuel : ℕ) (state : Option σ) (input : Fin V) (acc : List (Fin V)),
      acc.length < mlen → mlen - acc.length ≤ fuel →
      ∃ preds st, m.gen_loop stop (some mlen) fuel state input acc = some (preds, st) ∧
        preds.length ≤ mlen := by
  intro fuel
  induction fuel with
  | zero => intro state input acc hlt hle; omega
  | succ fuel ih =>
      intro state input acc hlt hle
      rw [gen_loop_succ]
      by_cases hc : np_argmax (m.gen_step state input).1 ∈ stop ∨
          (some mlen : Option ℕ) = some (acc ++ [np_argmax (m.gen_step state input).1]).length
      · refine ⟨_, _, by rw [if_pos hc], ?_⟩
        simp only [List.length_append, List.length_cons, List.length_nil]
        omega
      · rw [if_neg hc]
        have hne2 : (acc ++ [np_argmax (m.gen_step state input).1]).length ≠ mlen := by
          intro hEq
          exact hc (Or.inr (by rw [hEq]))
        have hlen2 : (acc ++ [np_argmax (m.gen_step state input).1]).length = acc.length + 1 := by
          simp
        exact ih _ _ _ (by omega) (by omega)

/-! ### The claims -/

/-- C10: for every tensor of rank at least 2, applying `time_major` twice
returns the original tensor: the transposition that swaps the first two
axes and leaves all remaining axes fixed is its own inverse. -/
theorem claim_C10_time_major_involutive {b t : ℕ} {γ : Type} (x : Fin b → Fin t → γ) :
    time_major (time_major x) = x :=
  rfl

/-- C1: for every input sequence and write-flag sequence of the same
length, the per-step output logits at a step whose write flag is false are
exactly the zero vector of vocabulary size, and at a step whose write flag
is true they equal the linear projection (shared weight matrix times the
step's hidden output, plus the shared bias) of that step's hidden
output. -/
theorem claim_C1_cond_output (m : EncoderDecoder V H σ) (s0 : σ) (inputs : List (Fin V))
    (iswrite : List Bool) (hlen : inputs.length = iswrite.length) :
    ∀ i, i < iswrite.length →
      ∃ hdn w, (m.rnn_outputs s0 inputs)[i]? = some hdn ∧ iswrite[i]? = some w ∧
        (m.outputs s0 inputs iswrite)[i]? =
          some (if w then (fun j => (∑ k, hdn k * m.output_w k j) + m.output_b j)
                else (fun _ => 0)) := by
  intro i hi
  have hlen2 : (m.rnn_outputs s0 inputs).length = iswrite.length := by
    simp [EncoderDecoder.rnn_outputs, EncoderDecoder.rnn_scan, tf_scan_length, hlen]
  have hi2 : i < (m.rnn_outputs s0 inputs).length := by rw [hlen2]; exact hi
  refine ⟨(m.rnn_outputs s0 inputs)[i], iswrite[i], List.getElem?_eq_getElem hi2,
    List.getElem?_eq_getElem hi, ?_⟩
  rw [EncoderDecoder.outputs, List.getElem?_zipWith', List.getElem?_eq_getElem hi2,
    List.getElem?_eq_getElem hi]
  rfl

/-- C2: for every input, target and write-flag sequence of the same
length, the per-step loss at a step whose write flag is false is exactly
zero, and at a step whose write flag is true it is the cross-entropy loss
between that step's logits and the target token. -/
theorem claim_C2_cond_loss (m : EncoderDecoder V H σ) (s0 : σ)
    (inputs targets : List (Fin V)) (iswrite : List Bool)
    (h1 : inputs.length = iswrite.length) (h2 : targets.length = iswrite.length) :
    ∀ i, i < iswrite.length →
      ∃ o t w, (m.outputs s0 inputs iswrite)[i]? = some o ∧ targets[i]? = some t ∧
        iswrite[i]? = some w ∧
        (m.seq_loss s0 inputs targets iswrite)[i]? =
          some (if w then m.xent o t else 0) := by
  intro i hi
  have hlen2 : (m.outputs s0 inputs iswrite).length = iswrite.length := by
    simp [EncoderDecoder.outputs, EncoderDecoder.rnn_outputs, EncoderDecoder.rnn_scan,
      tf_scan_length, h1]
  have hi2 : i < (m.outputs s0 inputs iswrite).length := by rw [hlen2]; exact hi
  have hi3 : i < targets.length := by rw [h2]; exact hi
  refine ⟨(m.outputs s0 inputs iswrite)[i], targets[i], iswrite[i],
    List.getElem?_eq_getElem hi2, List.getElem?_eq_getElem hi3,
    List.getElem?_eq_getElem hi, ?_⟩
  rw [EncoderDecoder.seq_loss,
    zipWith3_getElem? _ _ _ _ _ _ _ _ (List.getElem?_eq_getElem hi2)
      (List.getElem?_eq_getElem hi3) (List.getElem?_eq_getElem hi)]
  rfl

/-- C3: the aggregate scalar loss is the sum of the per-step losses
divided by the sequence length and divided by the batch size, exactly. -/
theorem claim_C3_loss (m : EncoderDecoder V H σ) (s0 : σ)
    (inputs targets : List (Fin V)) (iswrite : List Bool)
    (h1 : inputs.length = iswrite.length) (h2 : targets.length = iswrite.length)
    (hne : iswrite ≠ []) :
    m.loss s0 inputs targets iswrite =
      (m.seq_loss s0 inputs targets iswrite).sum / (iswrite.length : ℚ)
        / (batch_size : ℚ) := by
  have hlen : (m.seq_loss s0 inputs targets iswrite).length = targets.length := by
    rw [EncoderDecoder.seq_loss]
    refine zipWith3_length_eq _ _ _ _ ?_ h2.symm
    simp [EncoderDecoder.outputs, EncoderDecoder.rnn_outputs, EncoderDecoder.rnn_scan,
      tf_scan_length, h1, h2]
  rw [EncoderDecoder.loss, hlen, h2, div_right_comm]

/-- C6: the sequence scan starts from the accumulator (zero output vector,
initial cell state), carries (output, state) from each step to the next in
left-to-right order — the scan entry at index `i` is the left fold of the
step function over the first `i + 1` embedded inputs — and the final state
exposed after the scan is the state produced by the last real step (the
fold over the whole input), not the initializer. -/
theorem claim_C6_scan (m : EncoderDecoder V H σ) (inputs : List (Fin V))
    (hne : inputs ≠ []) :
    (m.rnn_scan m.zero_state inputs).length = inputs.length ∧
    (∀ i, i < inputs.length →
      (m.rnn_scan m.zero_state inputs)[i]? =
        some (List.foldl m.scan_step (EncoderDecoder.zero_output, m.zero_state)
          ((inputs.take (i + 1)).map m.embedding))) ∧
    m.final_state m.zero_state inputs = some (m.state_after m.zero_state inputs) := by
  refine ⟨?_, ?_, final_state_eq_state_after m _ _ hne⟩
  · simp [EncoderDecoder.rnn_scan, tf_scan_length]
  · intro i hi
    rw [EncoderDecoder.rnn_scan, tf_scan_getElem? _ _ _ i (by simpa using hi),
      List.map_take]

/-- C5: splitting a prefix into two consecutive nonempty parts, running
generation on the second part with the final state produced by processing
the first part supplied as the initial state yields the same result as a
single generation pass over the concatenated full sequence. -/
theorem claim_C5_state_continuity [NeZero V] (m : EncoderDecoder V H σ)
    (stop : List (Fin V)) (max_len : Option ℕ) (init : Option σ) (fuel : ℕ)
    (p1 p2 : List (Fin V)) (h1 : p1 ≠ []) (h2 : p2 ≠ []) :
    m.generate p2 stop max_len (m.final_state (init.getD m.zero_state) p1) fuel =
      m.generate (p1 ++ p2) stop max_len init fuel := by
  obtain ⟨l2, hl2⟩ : ∃ a, p2.getLast? = some a :=
    ⟨p2.getLast h2, List.getLast?_eq_getLast p2 h2⟩
  have hl12 : (p1 ++ p2).getLast? = some l2 := by
    rw [List.getLast?_append_of_ne_nil p1 h2]; exact hl2
  have hp1 : 0 < p1.length := List.length_pos.mpr h1
  have hp2 : 0 < p2.length := List.length_pos.mpr h2
  have hfs : m.final_state (init.getD m.zero_state) p1 =
      some (m.state_after (init.getD m.zero_state) p1) :=
    final_state_eq_state_after m _ _ h1
  rw [generate_eq m p2 stop max_len _ fuel l2 hl2,
    generate_eq m (p1 ++ p2) stop max_len init fuel l2 hl12]
  have hlen12 : 1 < (p1 ++ p2).length := by
    rw [List.length_append]; omega
  rw [if_pos hlen12, List.dropLast_append_of_ne_nil p1 h2]
  have hrhs : m.final_state (init.getD m.zero_state) (p1 ++ p2.dropLast) =
      some (m.state_after (m.state_after (init.getD m.zero_state) p1) p2.dropLast) := by
    rw [final_state_eq_state_after m _ _ (by simp [h1]), state_after_append]
  rw [hrhs, hfs]
  by_cases hlt : 1 < p2.length
  · rw [if_pos hlt]
    have hdne : p2.dropLast ≠ [] := by
      refine List.ne_nil_of_length_pos ?_
      rw [List.length_dropLast]; omega
    rw [final_state_eq_state_after m _ _ hdne]
    rfl
  · rw [if_neg hlt]
    have hdl : p2.dropLast = [] := by
      have : p2.dropLast.length = 0 := by rw [List.length_dropLast]; omega
      exact List.eq_nil_of_length_eq_zero this
    rw [hdl]
    rfl

/-- C7: every step of the decoding phase runs the graph on a single token
with the write flag true; its logits are the linear projection of that
step's hidden output (never the zero branch); the emitted token is a
highest-scoring vocabulary token of those logits (greedy argmax); and the
emitted token is both appended to the output and fed back as the input of
the next decoding step. -/
theorem claim_C7_greedy_decode [NeZero V] (m : EncoderDecoder V H σ)
    (stop : List (Fin V)) (max_len : Option ℕ) (fuel : ℕ) (state : Option σ)
    (tok : Fin V) (preds : List (Fin V)) :
    m.outputs (state.getD m.zero_state) [tok] [true] = [(m.gen_step state tok).1] ∧
    (∀ j, (m.gen_step state tok).1 j =
      (∑ k, (m.cellStep (m.embedding tok) (state.getD m.zero_state)).1 k * m.output_w k j)
        + m.output_b j) ∧
    (∀ j, (m.gen_step state tok).1 j ≤
      (m.gen_step state tok).1 (np_argmax (m.gen_step state tok).1)) ∧
    m.gen_loop stop max_len (fuel + 1) state tok preds =
      (if np_argmax (m.gen_step state tok).1 ∈ stop ∨
          max_len = some (preds ++ [np_argmax (m.gen_step state tok).1]).length
       then some (preds ++ [np_argmax (m.gen_step state tok).1],
                  some (m.gen_step state tok).2)
       else m.gen_loop stop max_len fuel (some (m.gen_step state tok).2)
              (np_argmax (m.gen_step state tok).1)
              (preds ++ [np_argmax (m.gen_step state tok).1])) :=
  ⟨rfl, fun _ => rfl, fun j => np_argmax_is_max _ j,
    gen_loop_succ m stop max_len fuel state tok preds⟩

/-- C8: if the prefix has more than one token, all tokens except the last
are fed through the sequence scanner (from the supplied initial state, or
the zero state when none is supplied) and the resulting carried state is
the decoding phase's initial state, with the last prefix token as the
first decoding input; for a one-token prefix no priming pass is run and
the supplied initial state is carried unchanged. -/
theorem claim_C8_priming [NeZero V] (m : EncoderDecoder V H σ)
    (inputs stop : List (Fin V)) (max_len : Option ℕ) (init_state : Option σ)
    (fuel : ℕ) (last : Fin V) (hlast : inputs.getLast? = some last) :
    (1 < inputs.length →
      m.generate inputs stop max_len init_state fuel =
        m.gen_loop stop max_len fuel
          (some (m.state_after (init_state.getD m.zero_state) inputs.dropLast))
          last []) ∧
    (inputs.length = 1 →
      m.generate inputs stop max_len init_state fuel =
        m.gen_loop stop max_len fuel init_state last []) := by
  constructor
  · intro hlen
    rw [generate_eq m inputs stop max_len init_state fuel last hlast, if_pos hlen,
      final_state_eq_state_after m _ _
        (List.ne_nil_of_length_pos (by rw [List.length_dropLast]; omega))]
  · intro hlen
    rw [generate_eq m inputs stop max_len init_state fuel last hlast,
      if_neg (by omega)]

/-- C9: whenever the decoding loop of `generate` returns, the returned
token sequence is non-empty (the predicted token is appended before the
stop conditions are checked), and its last element witnesses the break
condition: it is a stop symbol, unless the loop stopped by reaching the
length cap. -/
theorem claim_C9_last_token [NeZero V] (m : EncoderDecoder V H σ)
    (inputs stop : List (Fin V)) (max_len : Option ℕ) (init_state : Option σ)
    (fuel : ℕ) (preds : List (Fin V)) (st : Option σ)
    (h : m.generate inputs stop max_len init_state fuel = some (preds, st)) :
    preds ≠ [] ∧ ∃ last, preds.getLast? = some last ∧
      (last ∈ stop ∨ max_len = some preds.length) := by
  cases hlast : inputs.getLast? with
  | none =>
      rw [generate_none m inputs stop max_len init_state fuel hlast] at h
      exact absurd h (by simp)
  | some l =>
      rw [generate_eq m inputs stop max_len init_state fuel l hlast] at h
      obtain ⟨hlt, last, hl, hcond⟩ := gen_loop_sound m stop max_len fuel _ l [] preds st h
      exact ⟨List.ne_nil_of_length_pos (by simpa using hlt), last, hl, hcond⟩

/-- C4 (amended: `max_len ≥ 1`): for every call to `generate` on a
nonempty prefix with a stop-symbol set and a maximum length `max_len ≥ 1`,
given at least `max_len` iterations of fuel the decoding loop terminates —
upon emitting a stop token or upon reaching `max_len` generated tokens,
whichever occurs first — and the returned token sequence has length at
most `max_len`. -/
theorem claim_C4_terminates [NeZero V] (m : EncoderDecoder V H σ)
    (inputs stop : List (Fin V)) (init_state : Option σ) (mlen fuel : ℕ)
    (hin : inputs ≠ []) (hm : 1 ≤ mlen) (hfuel : mlen ≤ fuel) :
    ∃ preds st, m.generate inputs stop (some mlen) init_state fuel = some (preds, st) ∧
      preds.length ≤ mlen := by
  obtain ⟨last, hlast⟩ : ∃ a, inputs.getLast? = some a :=
    ⟨inputs.getLast hin, List.getLast?_eq_getLast inputs hin⟩
  rw [generate_eq m inputs stop (some mlen) init_state fuel last hlast]
  exact gen_loop_reaches_cap m stop mlen fuel _ last [] (by simpa using hm)
    (by simpa using hfuel)

/-- C4 counterexample: with `max_len = 0` the length cap can never fire
(the check `len(preds) == max_len` runs after a token has already been
appended), so a call that emits a stop symbol returns a sequence of length
1, which exceeds `max_len`: the claim's bound |preds| ≤ max_len fails as
stated for this call. -/
theorem claim_C4_counterexample :
    testM.generate [0] [1] (some 0) none 5 = some ([1], some ()) ∧
      ¬ (([1] : List (Fin 2)).length ≤ 0) :=
  ⟨by with_unfolding_all decide, by decide⟩

/-! ### Concrete witnesses -/

/-- Witness for C1 at a concrete model and sequences. -/
theorem claim_C1_witness :
    ([0, 1] : List (Fin 2)).length = ([true, false] : List Bool).length ∧
      ∀ i, i < ([true, false] : List Bool).length →
        ∃ hdn w, (testM.rnn_outputs () [0, 1])[i]? = some hdn ∧
          ([true, false] : List Bool)[i]? = some w ∧
          (testM.outputs () [0, 1] [true, false])[i]? =
            some (if w then (fun j => (∑ k, hdn k * testM.output_w k j) + testM.output_b j)
                  else (fun _ => 0)) :=
  ⟨rfl, claim_C1_cond_output testM () [0, 1] [true, false] rfl⟩

/-- Witness for C2 at a concrete model and sequences. -/
theorem claim_C2_witness :
    (([0, 1] : List (Fin 2)).length = ([true, false] : List Bool).length ∧
     ([1, 0] : List (Fin 2)).length = ([true, false] : List Bool).length) ∧
      ∀ i, i < ([true, false] : List Bool).length →
        ∃ o t w, (testM.outputs () [0, 1] [true, false])[i]? = some o ∧
          ([1, 0] : List (Fin 2))[i]? = some t ∧
          ([true, false] : List Bool)[i]? = some w ∧
          (testM.seq_loss () [0, 1] [1, 0] [true, false])[i]? =
            some (if w then testM.xent o t else 0) :=
  ⟨⟨rfl, rfl⟩, claim_C2_cond_loss testM () [0, 1] [1, 0] [true, false] rfl rfl⟩

/-- Witness for C3 at a concrete model and sequences. -/
theorem claim_C3_witness :
    (([0] : List (Fin 2)).length = ([true] : List Bool).length ∧
     ([1] : List (Fin 2)).length = ([true] : List Bool).length ∧
     ([true] : List Bool) ≠ []) ∧
      testM.loss () [0] [1] [true] =
        (testM.seq_loss () [0] [1] [true]).sum / (([true] : List Bool).length : ℚ)
          / (batch_size : ℚ) :=
  ⟨⟨rfl, rfl, by decide⟩, claim_C3_loss testM () [0] [1] [true] rfl rfl (by decide)⟩

/-- Witness for the amended C4 at a concrete call. -/
theorem claim_C4_witness :
    (([0] : List (Fin 2)) ≠ [] ∧ 1 ≤ 1 ∧ 1 ≤ 2) ∧
      ∃ preds st, testM.generate [0] [1] (some 1) none 2 = some (preds, st) ∧
        preds.length ≤ 1 :=
  ⟨⟨by decide, by decide, by decide⟩,
    claim_C4_terminates testM [0] [1] none 1 2 (by decide) (by decide) (by decide)⟩

/-- Witness for C5 at a concrete split prefix. -/
theorem claim_C5_witness :
    (([0] : List (Fin 2)) ≠ [] ∧ ([1] : List (Fin 2)) ≠ []) ∧
      testM.generate [1] [1] (some 2)
          (testM.final_state ((none : Option Unit).getD testM.zero_state) [0]) 3 =
        testM.generate ([0] ++ [1]) [1] (some 2) none 3 :=
  ⟨⟨by decide, by decide⟩,
    claim_C5_state_continuity testM [1] (some 2) none 3 [0] [1] (by decide) (by decide)⟩

/-- Witness for C6 at a concrete model and sequence. -/
theorem claim_C6_witness :
    (([0, 1] : List (Fin 2)) ≠ []) ∧
      ((testM.rnn_scan testM.zero_state [0, 1]).length = ([0, 1] : List (Fin 2)).length ∧
       (∀ i, i < ([0, 1] : List (Fin 2)).length →
         (testM.rnn_scan testM.zero_state [0, 1])[i]? =
           some (List.foldl testM.scan_step (EncoderDecoder.zero_output, testM.zero_state)
             ((([0, 1] : List (Fin 2)).take (i + 1)).map testM.embedding))) ∧
       testM.final_state testM.zero_state [0, 1] =
         some (testM.state_after testM.zero_state [0, 1])) :=
  ⟨by decide, claim_C6_scan testM [0, 1] (by decide)⟩

/-- Witness for C8 at a concrete two-token prefix. -/
theorem claim_C8_witness :
    (([0, 1] : List (Fin 2)).getLast? = some 1) ∧
      ((1 < ([0, 1] : List (Fin 2)).length →
        testM.generate [0, 1] [1] (some 3) none 4 =
          testM.gen_loop [1] (some 3) 4
            (some (testM.state_after ((none : Option Unit).getD testM.zero_state)
              ([0, 1] : List (Fin 2)).dropLast)) 1 []) ∧
       (([0, 1] : List (Fin 2)).length = 1 →
        testM.generate [0, 1] [1] (some 3) none 4 =
          testM.gen_loop [1] (some 3) 4 (none : Option Unit) 1 [])) :=
  ⟨by decide, claim_C8_priming testM [0, 1] [1] (some 3) none 4 1 (by decide)⟩

/-- Witness for C9 at a concrete call that returns. -/
theorem claim_C9_witness :
    testM.generate [0] [1] (some 5) none 5 = some ([1], some ()) ∧
      (([1] : List (Fin 2)) ≠ [] ∧ ∃ last, ([1] : List (Fin 2)).getLast? = some last ∧
        (last ∈ ([1] : List (Fin 2)) ∨ (some 5 : Option ℕ) = some ([1] : List (Fin 2)).length)) := by
  have hgen : testM.generate [0] [1] (some 5) none 5 = some ([1], some ()) := by
    with_unfolding_all decide
  exact ⟨hgen, claim_C9_last_token testM [0] [1] (some 5) none 5 [1] (some ()) hgen⟩

/-- Witness for C7 at a concrete model and decoding step. -/
theorem claim_C7_witness :
    NeZero 2 ∧
      (testM.outputs ((none : Option Unit).getD testM.zero_state) [0] [true] =
          [(testM.gen_step none 0).1] ∧
       (∀ j, (testM.gen_step none 0).1 j =
         (∑ k, (testM.cellStep (testM.embedding 0)
             ((none : Option Unit).getD testM.zero_state)).1 k * testM.output_w k j)
           + testM.output_b j) ∧
       (∀ j, (testM.gen_step none 0).1 j ≤
         (testM.gen_step none 0).1 (np_argmax (testM.gen_step none 0).1)) ∧
       testM.gen_loop [1] (some 3) (2 + 1) none 0 [] =
         (if np_argmax (testM.gen_step none 0).1 ∈ ([1] : List (Fin 2)) ∨
             (some 3 : Option ℕ) =
               some (([] : List (Fin 2)) ++ [np_argmax (testM.gen_step none 0).1]).length
          then some (([] : List (Fin 2)) ++ [np_argmax (testM.gen_step none 0).1],
                     some (testM.gen_step none 0).2)
          else testM.gen_loop [1] (some 3) 2 (some (testM.gen_step none 0).2)
                 (np_argmax (testM.gen_step none 0).1)
                 (([] : List (Fin 2)) ++ [np_argmax (testM.gen_step none 0).1]))) :=
  ⟨⟨by decide⟩, claim_C7_greedy_decode testM [1] (some 3) 2 none 0 []⟩
